import Mathlib

/-!
Verification of the Nine card game core (NineGameController.js):
the CPU opponent decision procedure, the round resolver, and the
turn/phase state machine. Pure methods become Lean functions; the
mutable controller state becomes an explicit GameState record and the
event handlers become state-transforming functions. Randomness
(Math.random) and the persistence write result are injected inputs
(TurnEnv). DOM rendering, animation delays and modal display are
omitted: they read state but never change the game fields.
-/

/-- Phase of the game, mirroring gamePhase : selection | reveal | complete. -/
inductive Phase where
  | selection
  | reveal
  | complete
deriving DecidableEq, Repr

/-- Winner tag of a round, mirroring the winner strings in resolveRound. -/
inductive RoundWinner where
  | player
  | cpu
  | tie
deriving DecidableEq, Repr

/-- Result of resolveRound: winner, points for each side, display message. -/
structure RoundResult where
  winner : RoundWinner
  playerPoints : Nat
  cpuPoints : Nat
  message : String
deriving DecidableEq, Repr

/-- Error a handler could signal to its caller. The JS handlers never
throw and return undefined on every path, so the error component of the
embedded handlers is none on every path; the type exists so that the
absence of a signal is expressible. -/
inductive NineError where
  | invalidCard
deriving DecidableEq, Repr

/-- The mutable game state of NineGameController (DOM caches omitted). -/
structure GameState where
  playerCards : List Nat
  cpuCards : List Nat
  playerUsedCards : List Nat
  cpuUsedCards : List Nat
  currentTurn : Nat
  isPlayerTurn : Bool
  playerSelectedCard : Option Nat
  cpuSelectedCard : Option Nat
  lastPlayerCard : Option Nat
  lastCpuCard : Option Nat
  lastRoundResult : Option RoundResult
  playerScore : Int
  cpuScore : Int
  highScore : Option Int
  gamePhase : Phase
  isLocked : Bool
deriving DecidableEq, Repr

/-- Injected environment for one confirm: the random draws consumed by
cpuSelectCard and the result of the persistence write. index n models
floor of r times n for one Math.random draw r used by randomChoice on a
list of length n; coin models one draw compared against 0.6; saveOk is
the outcome of the external saveNineGameScore call (ignored by the code). -/
structure TurnEnv where
  index : Nat → Nat
  coin : Bool
  saveOk : Bool

/-- Any actual Math.random draw r lies in the interval from 0 inclusive
to 1 exclusive, hence floor of r times n is below n whenever n is positive. -/
def ValidEnv (e : TurnEnv) : Prop :=
  ∀ n, 0 < n → e.index n < n

/-- randomChoice : array[Math.floor(Math.random() * array.length)].
Under ValidEnv the index is in range, so the default 0 is never used. -/
def randomChoice (e : TurnEnv) (a : List Nat) : Nat :=
  a.getD (e.index a.length) 0

/-- Math.max(...availableCards), as a fold over Nat (spread of an empty
array never occurs at call sites considered by the claims). -/
def maxCard (l : List Nat) : Nat :=
  l.foldl max 0

/-- resolveRound(playerCard, cpuCard): compare the two cards; the higher
card wins the sum of both as points, a tie awards nothing. -/
def resolveRound (playerCard cpuCard : Nat) : RoundResult :=
  let totalPoints := playerCard + cpuCard
  if playerCard > cpuCard then
    { winner := RoundWinner.player
      playerPoints := totalPoints
      cpuPoints := 0
      message := "You win " ++ toString totalPoints ++ " points! (Your " ++
        toString playerCard ++ " > CPU " ++ toString cpuCard ++ ")" }
  else if cpuCard > playerCard then
    { winner := RoundWinner.cpu
      playerPoints := 0
      cpuPoints := totalPoints
      message := "CPU wins " ++ toString totalPoints ++ " points! (CPU " ++
        toString cpuCard ++ " > Your " ++ toString playerCard ++ ")" }
  else
    { winner := RoundWinner.tie
      playerPoints := 0
      cpuPoints := 0
      message := "Tie! No points awarded. (" ++ toString playerCard ++ " = " ++
        toString cpuCard ++ ")" }

/-- cpuSelectCard(): the CPU strategy. availableCards is a copy of
state.cpuCards; scoreDiff = cpuScore - playerScore; remainingTurns =
10 - currentTurn. Five short-circuiting rules as in the source. -/
def cpuSelectCard (s : GameState) (e : TurnEnv) : Nat :=
  let availableCards := s.cpuCards
  let remainingTurns : Int := 10 - (s.currentTurn : Int)
  let scoreDiff : Int := s.cpuScore - s.playerScore
  if scoreDiff < -15 ∧ availableCards.length > 3 then
    randomChoice e (availableCards.drop (availableCards.length - 3))
  else if scoreDiff > 15 ∧ availableCards.length > 3 then
    randomChoice e (availableCards.take 3)
  else if remainingTurns ≤ 3 ∧ scoreDiff ≤ 0 then
    maxCard availableCards
  else
    let middleCards := availableCards.filter (fun c => 4 ≤ c ∧ c ≤ 6)
    if middleCards.length > 0 ∧ e.coin then
      randomChoice e middleCards
    else
      randomChoice e availableCards

/-- Outcome of checkAndSaveHighScore: whether the external write was
invoked, the returned isNewRecord flag, and the in-memory high score
after the call. -/
structure SaveOutcome where
  invokedWrite : Bool
  isNewRecord : Bool
  newHighScore : Option Int
deriving DecidableEq, Repr

/-- checkAndSaveHighScore(): writes and updates state.highScore exactly
when there is no stored best or the current score strictly exceeds it;
the result of the external write (saveOk) is never inspected. -/
def checkAndSaveHighScore (currentScore : Int) (currentBest : Option Int)
    (_saveOk : Bool) : SaveOutcome :=
  match currentBest with
  | none =>
    { invokedWrite := true, isNewRecord := true, newHighScore := some currentScore }
  | some b =>
    if currentScore > b then
      { invokedWrite := true, isNewRecord := true, newHighScore := some currentScore }
    else
      { invokedWrite := false, isNewRecord := false, newHighScore := some b }

/-- Overall match winner computed in handleGameComplete. -/
def matchWinner (s : GameState) : RoundWinner :=
  if s.playerScore > s.cpuScore then RoundWinner.player
  else if s.cpuScore > s.playerScore then RoundWinner.cpu
  else RoundWinner.tie

/-- startGame(): the reset state; highScore is whatever was loaded at
init and is not reset here, so it is a parameter. -/
def startGame (h0 : Option Int) : GameState :=
  { playerCards := [1, 2, 3, 4, 5, 6, 7, 8, 9]
    cpuCards := [1, 2, 3, 4, 5, 6, 7, 8, 9]
    playerUsedCards := []
    cpuUsedCards := []
    currentTurn := 1
    isPlayerTurn := true
    playerSelectedCard := none
    cpuSelectedCard := none
    lastPlayerCard := none
    lastCpuCard := none
    lastRoundResult := none
    playerScore := 0
    cpuScore := 0
    highScore := h0
    gamePhase := Phase.selection
    isLocked := false }

/-- handleCardClick(index): guards (lock, phase, used card) return with
no change and no signal; otherwise the selection toggles: clicking the
already selected value clears it, any other value replaces it. -/
def handleCardClick (s : GameState) (index : Nat) : GameState × Option NineError :=
  if s.isLocked then (s, none)
  else if s.gamePhase ≠ Phase.selection then (s, none)
  else
    let cardValue := index + 1
    if cardValue ∈ s.playerUsedCards then (s, none)
    else if s.playerSelectedCard = some cardValue then
      ({ s with playerSelectedCard := none }, none)
    else
      ({ s with playerSelectedCard := some cardValue }, none)

/-- revealCards(): resolve the two stored cards and add the points to
the running scores. When a stored card is null, JS resolveRound(null,
null) takes the tie branch with 0 points, which getD 0 reproduces. -/
def revealCards (s : GameState) : GameState :=
  let result := resolveRound (s.lastPlayerCard.getD 0) (s.lastCpuCard.getD 0)
  { s with
    lastRoundResult := some result
    playerScore := s.playerScore + (result.playerPoints : Int)
    cpuScore := s.cpuScore + (result.cpuPoints : Int) }

/-- handleGameComplete(): enter the complete phase, lock, and update the
high score through checkAndSaveHighScore. -/
def handleGameComplete (s : GameState) (saveOk : Bool) : GameState :=
  let s1 := { s with gamePhase := Phase.complete, isLocked := true }
  { s1 with highScore := (checkAndSaveHighScore s1.playerScore s1.highScore saveOk).newHighScore }

/-- nextTurn(): advance the turn counter, recompute the first mover,
clear selections, unlock, and return to the selection phase. -/
def nextTurn (s : GameState) : GameState :=
  { s with
    currentTurn := s.currentTurn + 1
    isPlayerTurn := (s.currentTurn + 1) % 2 = 1
    playerSelectedCard := none
    cpuSelectedCard := none
    gamePhase := Phase.selection
    isLocked := false }

/-- handleConfirm(): guards (lock, no pending selection, phase) return
with no change and no signal; otherwise the CPU picks a card, both cards
move from available to used, the round resolves, and the machine either
completes (turn 9) or advances to the next turn. The awaited cosmetic
delays are modelled atomically: the state is locked throughout them and
no other handler can change the fields in between. -/
def handleConfirm (s : GameState) (e : TurnEnv) : GameState × Option NineError :=
  if s.isLocked then (s, none)
  else
    match s.playerSelectedCard with
    | none => (s, none)
    | some pSel =>
      if s.gamePhase ≠ Phase.selection then (s, none)
      else
        let cpuSel := cpuSelectCard s e
        let s1 : GameState :=
          { s with
            isLocked := true
            cpuSelectedCard := some cpuSel
            lastPlayerCard := some pSel
            lastCpuCard := some cpuSel
            playerUsedCards := s.playerUsedCards ++ [pSel]
            cpuUsedCards := s.cpuUsedCards ++ [cpuSel]
            playerCards := s.playerCards.filter (fun c => c ≠ pSel)
            cpuCards := s.cpuCards.filter (fun c => c ≠ cpuSel)
            gamePhase := Phase.reveal }
        let s2 := revealCards s1
        if s2.currentTurn ≥ 9 then (handleGameComplete s2 e.saveOk, none)
        else (nextTurn s2, none)

/-- One externally triggered operation of the machine: a click on one of
the nine card elements, or a confirm with its injected randomness. -/
inductive Step : GameState → GameState → Prop where
  | click (s : GameState) (i : Nat) (hi : i < 9) : Step s (handleCardClick s i).1
  | confirm (s : GameState) (e : TurnEnv) (he : ValidEnv e) : Step s (handleConfirm s e).1

/-- States reachable from a fresh match (startGame) by clicks and confirms. -/
inductive Reachable (h0 : Option Int) : GameState → Prop where
  | init : Reachable h0 (startGame h0)
  | step {s s' : GameState} : Reachable h0 s → Step s s' → Reachable h0 s'

/-! ### Basic list lemmas used throughout -/

/-- Removing one occurrence of a present value from a duplicate-free list
shortens it by exactly one. -/
theorem length_filter_ne (a : Nat) (l : List Nat) (hn : l.Nodup) (h : a ∈ l) :
    (l.filter (fun c => c ≠ a)).length + 1 = l.length := by
  induction l with
  | nil => cases h
  | cons x t ih =>
    obtain ⟨hx, ht⟩ := List.nodup_cons.mp hn
    rcases List.mem_cons.mp h with rfl | hmem
    · simp [List.filter_cons]
      intro b hb e
      exact hx (e ▸ hb)
    · have hxa : x ≠ a := fun e => hx (e ▸ hmem)
      have h2 := ih ht hmem
      simp only [ne_eq, decide_not] at h2
      simp [List.filter_cons, hxa]
      omega

theorem foldl_max_init_le (l : List Nat) (a : Nat) : a ≤ l.foldl max a := by
  induction l generalizing a with
  | nil => exact Nat.le_refl a
  | cons x t ih => exact Nat.le_trans (Nat.le_max_left a x) (ih (max a x))

theorem mem_le_foldl_max (l : List Nat) : ∀ a x, x ∈ l → x ≤ l.foldl max a := by
  induction l with
  | nil =>
    intro a x hx
    cases hx
  | cons y t ih =>
    intro a x hx
    rcases List.mem_cons.mp hx with rfl | hmem
    · exact Nat.le_trans (Nat.le_max_right a x) (foldl_max_init_le t (max a x))
    · exact ih (max a y) x hmem

theorem foldl_max_mem (l : List Nat) : ∀ a, (l.foldl max a = a ∨ l.foldl max a ∈ l) := by
  induction l with
  | nil => exact fun a => Or.inl rfl
  | cons x t ih =>
    intro a
    rcases ih (max a x) with heq | hmem
    · rcases Nat.le_total a x with hax | hxa
      · right
        rw [List.foldl_cons, heq, Nat.max_eq_right hax]
        exact List.mem_cons_self x t
      · left
        rw [List.foldl_cons, heq, Nat.max_eq_left hxa]
    · right
      exact List.mem_cons_of_mem x hmem

/-- Math.max over a non-empty card list is one of the cards. -/
theorem maxCard_mem (l : List Nat) (hl : l ≠ []) : maxCard l ∈ l := by
  match l with
  | x :: t =>
    unfold maxCard
    rw [List.foldl_cons]
    rw [Nat.max_eq_right (Nat.zero_le x)]
    rcases foldl_max_mem t x with heq | hmem
    · rw [heq]
      exact List.mem_cons_self x t
    · exact List.mem_cons_of_mem x hmem

/-- Math.max over a card list bounds every card. -/
theorem maxCard_ge (l : List Nat) : ∀ x ∈ l, x ≤ maxCard l := by
  intro x hx
  unfold maxCard
  exact mem_le_foldl_max l 0 x hx

/-- Under a real random draw, randomChoice picks an element of a
non-empty list. -/
theorem randomChoice_mem (e : TurnEnv) (he : ValidEnv e) (l : List Nat) (hl : l ≠ []) :
    randomChoice e l ∈ l := by
  have hlen : 0 < l.length := List.length_pos.mpr hl
  have hidx : e.index l.length < l.length := he l.length hlen
  rw [randomChoice, List.getD_eq_getElem l 0 hidx]
  exact List.getElem_mem hidx

/-- In a pairwise-ordered list, every element of the first n positions
relates to every element beyond them. -/
theorem pairwise_take_drop {R : Nat → Nat → Prop} (l : List Nat) (n : Nat)
    (h : l.Pairwise R) : ∀ x ∈ l.take n, ∀ y ∈ l.drop n, R x y := by
  have h2 : (l.take n ++ l.drop n).Pairwise R := by
    rw [List.take_append_drop]
    exact h
  exact (List.pairwise_append.mp h2).2.2

/-- The CPU strategy always returns one of its available cards. -/
theorem cpuSelectCard_mem (s : GameState) (e : TurnEnv) (he : ValidEnv e)
    (hne : s.cpuCards ≠ []) : cpuSelectCard s e ∈ s.cpuCards := by
  have hlen : 0 < s.cpuCards.length := List.length_pos.mpr hne
  simp only [cpuSelectCard]
  split_ifs with h1 h2 h3 h4
  · have hd : (s.cpuCards.drop (s.cpuCards.length - 3)).length = 3 := by
      rw [List.length_drop]
      omega
    exact List.mem_of_mem_drop
      (randomChoice_mem e he _ (List.length_pos.mp (by omega)))
  · have ht : (s.cpuCards.take 3).length = 3 := by
      rw [List.length_take]
      omega
    exact List.mem_of_mem_take
      (randomChoice_mem e he _ (List.length_pos.mp (by omega)))
  · exact maxCard_mem _ hne
  · exact List.mem_of_mem_filter
      (randomChoice_mem e he _ (List.length_pos.mp (by omega)))
  · exact randomChoice_mem e he _ hne

/-! ### Spec-side strategy definition (for the refinement claim) -/

/-- Spec 4.1 topN: the n highest still-available values, read off the
ascending sort of the available set. -/
def topN (available : List Nat) (n : Nat) : List Nat :=
  let sorted := available.insertionSort (· ≤ ·)
  sorted.drop (sorted.length - n)

/-- Spec 4.1 bottomN: the n lowest still-available values. -/
def bottomN (available : List Nat) (n : Nat) : List Nat :=
  (available.insertionSort (· ≤ ·)).take n

/-- Spec 4.3 chooseCard, written from the words of the spec: the five
short-circuiting rules Desperation, Preservation, Endgame push, Balanced
default, Fallback with their exact thresholds. -/
def chooseCard (available : List Nat) (scoreDiff : Int) (turnNumber : Nat)
    (e : TurnEnv) : Nat :=
  if scoreDiff < -15 ∧ available.length > 3 then
    randomChoice e (topN available 3)
  else if scoreDiff > 15 ∧ available.length > 3 then
    randomChoice e (bottomN available 3)
  else if (10 - (turnNumber : Int)) ≤ 3 ∧ scoreDiff ≤ 0 then
    maxCard available
  else
    let mid := available.filter (fun c => 4 ≤ c ∧ c ≤ 6)
    if mid.length > 0 ∧ e.coin then
      randomChoice e mid
    else
      randomChoice e available

/-- A fixed concrete environment: every randomChoice takes index 0, the
0.6 coin comes up true, the persistence write succeeds. -/
def e0 : TurnEnv :=
  { index := fun _ => 0, coin := true, saveOk := true }

theorem e0Valid : ValidEnv e0 := fun _ hn => hn

/-- C1: the CPU strategy cpuSelectCard follows exactly the five-rule
decision order of the spec with its constants, with the random source an
injected input: on a strictly ascending available list (the canonical
representation of the available set, which every reachable pool has) it
equals the spec chooseCard at scoreDiff = cpuScore - playerScore and the
current turn number; moreover the card picked by the deterministic
Endgame rule, maxCard, is the single highest available card. -/
theorem nine_cpu_strategy_follows_spec (s : GameState) (e : TurnEnv)
    (hsorted : s.cpuCards.Sorted (· < ·)) (hne : s.cpuCards ≠ []) :
    cpuSelectCard s e =
      chooseCard s.cpuCards (s.cpuScore - s.playerScore) s.currentTurn e ∧
    maxCard s.cpuCards ∈ s.cpuCards ∧
    (∀ x ∈ s.cpuCards, x ≤ maxCard s.cpuCards) := by
  have hle : s.cpuCards.Sorted (· ≤ ·) := hsorted.imp (fun h => Nat.le_of_lt h)
  have hsort : s.cpuCards.insertionSort (· ≤ ·) = s.cpuCards := hle.insertionSort_eq
  refine ⟨?_, maxCard_mem _ hne, maxCard_ge _⟩
  simp only [cpuSelectCard, chooseCard, topN, bottomN, hsort]

/-- C1 witness: instantiated at the fresh pool of a new match. -/
theorem nine_cpu_strategy_follows_spec_witness :
    cpuSelectCard (startGame none) e0 =
      chooseCard (startGame none).cpuCards
        ((startGame none).cpuScore - (startGame none).playerScore)
        (startGame none).currentTurn e0 ∧
    maxCard (startGame none).cpuCards ∈ (startGame none).cpuCards ∧
    (∀ x ∈ (startGame none).cpuCards, x ≤ maxCard (startGame none).cpuCards) :=
  nine_cpu_strategy_follows_spec (startGame none) e0 (by decide) (by decide)

/-- C2: for every state with a non-empty CPU pool, every score pair and
turn number, and every possible behavior of the random source,
cpuSelectCard returns (totally, without failure) a member of the pool. -/
theorem nine_cpu_select_legal (s : GameState) (e : TurnEnv) (he : ValidEnv e)
    (hne : s.cpuCards ≠ []) : cpuSelectCard s e ∈ s.cpuCards :=
  cpuSelectCard_mem s e he hne

/-- C2 witness: concrete evaluation on the fresh pool. -/
theorem nine_cpu_select_legal_witness :
    cpuSelectCard (startGame none) e0 ∈ (startGame none).cpuCards :=
  nine_cpu_select_legal (startGame none) e0 e0Valid (by decide)

/-- C3: the round resolver awards the sum of both cards to the strictly
higher card and nothing on a tie, for all cards in 1..9. -/
theorem nine_resolve_round_correct (a b : Nat)
    (ha1 : 1 ≤ a) (ha9 : a ≤ 9) (hb1 : 1 ≤ b) (hb9 : b ≤ 9) :
    (a > b → (resolveRound a b).winner = RoundWinner.player ∧
      (resolveRound a b).playerPoints = a + b ∧ (resolveRound a b).cpuPoints = 0) ∧
    (b > a → (resolveRound a b).winner = RoundWinner.cpu ∧
      (resolveRound a b).cpuPoints = a + b ∧ (resolveRound a b).playerPoints = 0) ∧
    (a = b → (resolveRound a b).winner = RoundWinner.tie ∧
      (resolveRound a b).playerPoints = 0 ∧ (resolveRound a b).cpuPoints = 0) := by
  unfold resolveRound
  refine ⟨fun h => ?_, fun h => ?_, fun h => ?_⟩ <;>
    simp only [gt_iff_lt] <;> split_ifs with h1 h2 <;> simp_all <;> omega

/-- C3 witness: evaluated at the pair (5, 3). -/
theorem nine_resolve_round_correct_witness :
    (5 > 3 → (resolveRound 5 3).winner = RoundWinner.player ∧
      (resolveRound 5 3).playerPoints = 5 + 3 ∧ (resolveRound 5 3).cpuPoints = 0) ∧
    (3 > 5 → (resolveRound 5 3).winner = RoundWinner.cpu ∧
      (resolveRound 5 3).cpuPoints = 5 + 3 ∧ (resolveRound 5 3).playerPoints = 0) ∧
    (5 = 3 → (resolveRound 5 3).winner = RoundWinner.tie ∧
      (resolveRound 5 3).playerPoints = 0 ∧ (resolveRound 5 3).cpuPoints = 0) :=
  nine_resolve_round_correct 5 3 (by decide) (by decide) (by decide) (by decide)

/-- C8: the high-score write is invoked iff no stored best exists or the
final score strictly exceeds it; the reported isNewRecord flag equals
exactly that pre-write comparison; the in-memory high score afterwards
is the maximum of the prior value and the score; and the whole outcome
is independent of whether the persistence write reports success or
failure. The last conjunct ties the function to match completion. -/
theorem nine_high_score_contract (score : Int) (best : Option Int) (ok okAlt : Bool) :
    ((checkAndSaveHighScore score best ok).invokedWrite = true ↔
      (best = none ∨ ∃ b, best = some b ∧ score > b)) ∧
    (checkAndSaveHighScore score best ok).isNewRecord =
      (checkAndSaveHighScore score best ok).invokedWrite ∧
    ((checkAndSaveHighScore score best ok).isNewRecord = true ↔
      (best = none ∨ ∃ b, best = some b ∧ score > b)) ∧
    (checkAndSaveHighScore score best ok).newHighScore =
      some (match best with | none => score | some b => max b score) ∧
    checkAndSaveHighScore score best ok = checkAndSaveHighScore score best okAlt ∧
    (∀ s : GameState, (handleGameComplete s ok).highScore =
      (checkAndSaveHighScore s.playerScore s.highScore ok).newHighScore) := by
  match best with
  | none => simp [checkAndSaveHighScore, handleGameComplete]
  | some b =>
    by_cases hgt : score > b
    · simp [checkAndSaveHighScore, hgt, handleGameComplete]
      omega
    · simp [checkAndSaveHighScore, hgt, handleGameComplete]
      omega

/-! ### The reachability invariant of the match state machine -/

/-- Total points of one resolved round (playerCard, cpuCard). -/
def roundSum (rounds : List (Nat × Nat)) : Nat :=
  (rounds.map (fun ab =>
    (resolveRound ab.1 ab.2).playerPoints + (resolveRound ab.1 ab.2).cpuPoints)).sum

theorem roundSum_append (a b : List (Nat × Nat)) :
    roundSum (a ++ b) = roundSum a + roundSum b := by
  simp [roundSum]

theorem zip_snoc (a b : List Nat) (x y : Nat) (h : a.length = b.length) :
    (a ++ [x]).zip (b ++ [y]) = a.zip b ++ [(x, y)] := by
  rw [List.zip_append h]
  rfl

/-- The inductive invariant of every reachable state: ordered
duplicate-free pools partitioning 1..9 together with the used piles,
turn bounds, the phase and lock discipline, legality of the pending
selection, and score accounting against the played rounds. -/
structure NineInv (s : GameState) : Prop where
  sorted_p : s.playerCards.Sorted (· < ·)
  sorted_c : s.cpuCards.Sorted (· < ·)
  part_p : ∀ v, (v ∈ s.playerCards ∨ v ∈ s.playerUsedCards) ↔ (1 ≤ v ∧ v ≤ 9)
  disj_p : ∀ v, v ∈ s.playerCards → v ∉ s.playerUsedCards
  part_c : ∀ v, (v ∈ s.cpuCards ∨ v ∈ s.cpuUsedCards) ↔ (1 ≤ v ∧ v ≤ 9)
  disj_c : ∀ v, v ∈ s.cpuCards → v ∉ s.cpuUsedCards
  turn_ge : 1 ≤ s.currentTurn
  turn_le : s.currentTurn ≤ 9
  phase_ne : s.gamePhase ≠ Phase.reveal
  sel_len : s.gamePhase = Phase.selection →
    s.playerCards.length = 10 - s.currentTurn ∧
    s.cpuCards.length = 10 - s.currentTurn ∧
    s.playerUsedCards.length = s.currentTurn - 1 ∧
    s.cpuUsedCards.length = s.currentTurn - 1 ∧
    s.isLocked = false
  comp_st : s.gamePhase = Phase.complete →
    s.currentTurn = 9 ∧ s.playerCards = [] ∧ s.cpuCards = [] ∧
    s.playerUsedCards.length = 9 ∧ s.cpuUsedCards.length = 9 ∧ s.isLocked = true
  sel_mem : s.gamePhase = Phase.selection →
    ∀ p, s.playerSelectedCard = some p → p ∈ s.playerCards
  score_eq : s.playerScore + s.cpuScore =
    (roundSum (s.playerUsedCards.zip s.cpuUsedCards) : Int)
  score_nn_p : 0 ≤ s.playerScore
  score_nn_c : 0 ≤ s.cpuScore

theorem inv_init (h0 : Option Int) : NineInv (startGame h0) := by
  have hpart : ∀ v : Nat,
      (v ∈ (startGame h0).playerCards ∨ v ∈ (startGame h0).playerUsedCards) ↔
        (1 ≤ v ∧ v ≤ 9) := by
    intro v
    simp only [startGame, List.mem_cons, List.not_mem_nil, or_false]
    omega
  refine ⟨?_, ?_, hpart, ?_, hpart, ?_, ?_, ?_, ?_, ?_, ?_, ?_, ?_, ?_, ?_⟩
  · show List.Sorted (· < ·) [1, 2, 3, 4, 5, 6, 7, 8, 9]
    decide
  · show List.Sorted (· < ·) [1, 2, 3, 4, 5, 6, 7, 8, 9]
    decide
  · intro v _ hv
    exact List.not_mem_nil v hv
  · intro v _ hv
    exact List.not_mem_nil v hv
  · exact Nat.le_refl 1
  · show (1 : Nat) ≤ 9
    decide
  · show Phase.selection ≠ Phase.reveal
    decide
  · intro _
    exact ⟨rfl, rfl, rfl, rfl, rfl⟩
  · intro h
    exact Phase.noConfusion h
  · intro _ p hp
    exact Option.noConfusion hp
  · show (0 : Int) + 0 = ((roundSum (List.zip [] [])) : Int)
    decide
  · exact Int.le_refl 0
  · exact Int.le_refl 0

/-- Moving one present value from the available list to the used pile
preserves the partition of 1..9 and the disjointness. -/
theorem part_move (avail used : List Nat) (p : Nat)
    (hpart : ∀ v, (v ∈ avail ∨ v ∈ used) ↔ (1 ≤ v ∧ v ≤ 9))
    (hdisj : ∀ v, v ∈ avail → v ∉ used) (hp : p ∈ avail) :
    (∀ v, (v ∈ avail.filter (fun c => c ≠ p) ∨ v ∈ used ++ [p]) ↔
      (1 ≤ v ∧ v ≤ 9)) ∧
    (∀ v, v ∈ avail.filter (fun c => c ≠ p) → v ∉ used ++ [p]) := by
  constructor
  · intro v
    constructor
    · rintro (hv | hv)
      · exact (hpart v).mp (Or.inl (List.mem_of_mem_filter hv))
      · rcases List.mem_append.mp hv with hv | hv
        · exact (hpart v).mp (Or.inr hv)
        · rw [List.mem_singleton] at hv
          subst hv
          exact (hpart v).mp (Or.inl hp)
    · intro hr
      rcases (hpart v).mpr hr with hv | hv
      · by_cases hvp : v = p
        · exact Or.inr (List.mem_append.mpr (Or.inr (by simp [hvp])))
        · refine Or.inl (List.mem_filter.mpr ⟨hv, by simp [hvp]⟩)
      · exact Or.inr (List.mem_append.mpr (Or.inl hv))
  · intro v hv hcon
    have hva : v ∈ avail ∧ v ≠ p := by simpa using hv
    rcases List.mem_append.mp hcon with h | h
    · exact hdisj v hva.1 h
    · exact hva.2 (List.mem_singleton.mp h)

/-- Preservation of the invariant by a card click. -/
theorem inv_click {s : GameState} (hs : NineInv s) (i : Nat) (hi : i < 9) :
    NineInv (handleCardClick s i).1 := by
  by_cases hL : s.isLocked
  · simpa [handleCardClick, hL] using hs
  · simp only [Bool.not_eq_true] at hL
    by_cases hPh : s.gamePhase = Phase.selection
    · by_cases hU : (i + 1) ∈ s.playerUsedCards
      · simpa [handleCardClick, hL, hPh, hU] using hs
      · have hmem : (i + 1) ∈ s.playerCards := by
          rcases (hs.part_p (i + 1)).mpr ⟨by omega, by omega⟩ with h | h
          · exact h
          · exact absurd h hU
        by_cases hSel : s.playerSelectedCard = some (i + 1)
        · simp only [handleCardClick, hL, hPh, hU, hSel]
          simp only [Bool.false_eq_true, if_false, ite_true, ite_false, ne_eq,
            not_true_eq_false, if_true]
          refine ⟨hs.sorted_p, hs.sorted_c, hs.part_p, hs.disj_p, hs.part_c,
            hs.disj_c, hs.turn_ge, hs.turn_le, ?_, ?_, ?_, ?_, hs.score_eq,
            hs.score_nn_p, hs.score_nn_c⟩
          · intro h
            exact Phase.noConfusion h
          · intro _
            obtain ⟨a, b, c, d, _⟩ := hs.sel_len hPh
            exact ⟨a, b, c, d, rfl⟩
          · intro h
            exact Phase.noConfusion h
          · intro _ p hp
            exact Option.noConfusion hp
        · simp only [handleCardClick, hL, hPh, hU, hSel]
          simp only [Bool.false_eq_true, if_false, ite_true, ite_false, ne_eq,
            not_true_eq_false, if_true]
          refine ⟨hs.sorted_p, hs.sorted_c, hs.part_p, hs.disj_p, hs.part_c,
            hs.disj_c, hs.turn_ge, hs.turn_le, ?_, ?_, ?_, ?_, hs.score_eq,
            hs.score_nn_p, hs.score_nn_c⟩
          · intro h
            exact Phase.noConfusion h
          · intro _
            obtain ⟨a, b, c, d, _⟩ := hs.sel_len hPh
            exact ⟨a, b, c, d, rfl⟩
          · intro h
            exact Phase.noConfusion h
          · intro _ p hp
            have hpv : i + 1 = p := Option.some.inj hp
            exact hpv ▸ hmem
    · simpa [handleCardClick, hL, hPh] using hs

/-- Preservation of the invariant by a confirm. -/
theorem inv_confirm {s : GameState} (hs : NineInv s) (e : TurnEnv) (he : ValidEnv e) :
    NineInv (handleConfirm s e).1 := by
  by_cases hL : s.isLocked
  · simpa [handleConfirm, hL] using hs
  · simp only [Bool.not_eq_true] at hL
    cases hSel : s.playerSelectedCard with
    | none => simpa [handleConfirm, hL, hSel] using hs
    | some pSel =>
      by_cases hPh : s.gamePhase = Phase.selection
      case neg => simpa [handleConfirm, hL, hSel, hPh] using hs
      case pos =>
        obtain ⟨hlenP, hlenC, hulP, hulC, _⟩ := hs.sel_len hPh
        have ht9 := hs.turn_le
        have ht1 := hs.turn_ge
        have hpmem : pSel ∈ s.playerCards := hs.sel_mem hPh pSel hSel
        have hcne : s.cpuCards ≠ [] := by
          apply List.length_pos.mp
          omega
        have hcmem : cpuSelectCard s e ∈ s.cpuCards := cpuSelectCard_mem s e he hcne
        have hlfp := length_filter_ne pSel s.playerCards hs.sorted_p.nodup hpmem
        have hlfc := length_filter_ne (cpuSelectCard s e) s.cpuCards
          hs.sorted_c.nodup hcmem
        obtain ⟨hpart_p, hdisj_p⟩ := part_move _ _ _ hs.part_p hs.disj_p hpmem
        obtain ⟨hpart_c, hdisj_c⟩ := part_move _ _ _ hs.part_c hs.disj_c hcmem
        have hzip : (s.playerUsedCards ++ [pSel]).zip
            (s.cpuUsedCards ++ [cpuSelectCard s e]) =
            s.playerUsedCards.zip s.cpuUsedCards ++ [(pSel, cpuSelectCard s e)] :=
          zip_snoc _ _ _ _ (by omega)
        have hrs : roundSum [(pSel, cpuSelectCard s e)] =
            (resolveRound pSel (cpuSelectCard s e)).playerPoints +
            (resolveRound pSel (cpuSelectCard s e)).cpuPoints := by
          simp [roundSum]
        have hscore := hs.score_eq
        have hnnp := hs.score_nn_p
        have hnnc := hs.score_nn_c
        simp only [handleConfirm, hL, hSel, hPh]
        simp only [Bool.false_eq_true, if_false, ite_true, ite_false, ne_eq,
          not_true_eq_false, if_true]
        split
        case isTrue h9 =>
          have h9' : s.currentTurn = 9 := by
            have h9n : 9 ≤ s.currentTurn := h9
            omega
          refine ⟨List.Pairwise.filter _ hs.sorted_p,
            List.Pairwise.filter _ hs.sorted_c, hpart_p, hdisj_p, hpart_c,
            hdisj_c, ht1, ht9, ?_, ?_, ?_, ?_, ?_, ?_, ?_⟩
          · intro h
            exact Phase.noConfusion h
          · intro h
            exact Phase.noConfusion h
          · intro _
            refine ⟨h9', ?_, ?_, ?_, ?_, rfl⟩
            · refine List.length_eq_zero.mp ?_
              show (s.playerCards.filter (fun c => c ≠ pSel)).length = 0
              omega
            · refine List.length_eq_zero.mp ?_
              show (s.cpuCards.filter (fun c => c ≠ cpuSelectCard s e)).length = 0
              omega
            · show (s.playerUsedCards ++ [pSel]).length = 9
              rw [List.length_append]
              simp only [List.length_singleton]
              omega
            · show (s.cpuUsedCards ++ [cpuSelectCard s e]).length = 9
              rw [List.length_append]
              simp only [List.length_singleton]
              omega
          · intro h
            exact Phase.noConfusion h
          · show s.playerScore + ((resolveRound pSel (cpuSelectCard s e)).playerPoints : Int) +
              (s.cpuScore + ((resolveRound pSel (cpuSelectCard s e)).cpuPoints : Int)) =
              ((roundSum ((s.playerUsedCards ++ [pSel]).zip
                (s.cpuUsedCards ++ [cpuSelectCard s e]))) : Int)
            rw [hzip, roundSum_append, hrs]
            push_cast
            push_cast at hscore
            omega
          · show (0 : Int) ≤ s.playerScore +
              ((resolveRound pSel (cpuSelectCard s e)).playerPoints : Int)
            omega
          · show (0 : Int) ≤ s.cpuScore +
              ((resolveRound pSel (cpuSelectCard s e)).cpuPoints : Int)
            omega
        case isFalse h9 =>
          have h9' : s.currentTurn ≤ 8 := by
            have h9n : ¬ 9 ≤ s.currentTurn := h9
            omega
          refine ⟨List.Pairwise.filter _ hs.sorted_p,
            List.Pairwise.filter _ hs.sorted_c, hpart_p, hdisj_p, hpart_c,
            hdisj_c, ?_, ?_, ?_, ?_, ?_, ?_, ?_, ?_, ?_⟩
          · show 1 ≤ s.currentTurn + 1
            omega
          · show s.currentTurn + 1 ≤ 9
            omega
          · intro h
            exact Phase.noConfusion h
          · intro _
            refine ⟨?_, ?_, ?_, ?_, rfl⟩
            · show (s.playerCards.filter (fun c => c ≠ pSel)).length =
                10 - (s.currentTurn + 1)
              omega
            · show (s.cpuCards.filter (fun c => c ≠ cpuSelectCard s e)).length =
                10 - (s.currentTurn + 1)
              omega
            · show (s.playerUsedCards ++ [pSel]).length = (s.currentTurn + 1) - 1
              rw [List.length_append]
              simp only [List.length_singleton]
              omega
            · show (s.cpuUsedCards ++ [cpuSelectCard s e]).length =
                (s.currentTurn + 1) - 1
              rw [List.length_append]
              simp only [List.length_singleton]
              omega
          · intro h
            exact Phase.noConfusion h
          · intro _ p hp
            exact Option.noConfusion hp
          · show s.playerScore + ((resolveRound pSel (cpuSelectCard s e)).playerPoints : Int) +
              (s.cpuScore + ((resolveRound pSel (cpuSelectCard s e)).cpuPoints : Int)) =
              ((roundSum ((s.playerUsedCards ++ [pSel]).zip
                (s.cpuUsedCards ++ [cpuSelectCard s e]))) : Int)
            rw [hzip, roundSum_append, hrs]
            push_cast
            push_cast at hscore
            omega
          · show (0 : Int) ≤ s.playerScore +
              ((resolveRound pSel (cpuSelectCard s e)).playerPoints : Int)
            omega
          · show (0 : Int) ≤ s.cpuScore +
              ((resolveRound pSel (cpuSelectCard s e)).cpuPoints : Int)
            omega

theorem inv_step {s s' : GameState} (hs : NineInv s) (st : Step s s') : NineInv s' := by
  cases st with
  | click i hi => exact inv_click hs i hi
  | confirm e he => exact inv_confirm hs e he

/-- Every reachable state satisfies the invariant. -/
theorem inv_reachable {h0 : Option Int} {s : GameState} (hr : Reachable h0 s) :
    NineInv s := by
  induction hr with
  | init => exact inv_init h0
  | step _ st ih => exact inv_step ih st

/-- No step ever puts a value back into an available pool, and no step
ever removes a value from a used pile. -/
theorem step_pools_mono {s s' : GameState} (st : Step s s') :
    (∀ v, v ∈ s'.playerCards → v ∈ s.playerCards) ∧
    (∀ v, v ∈ s.playerUsedCards → v ∈ s'.playerUsedCards) ∧
    (∀ v, v ∈ s'.cpuCards → v ∈ s.cpuCards) ∧
    (∀ v, v ∈ s.cpuUsedCards → v ∈ s'.cpuUsedCards) := by
  cases st with
  | click i hi =>
    have h : (handleCardClick s i).1.playerCards = s.playerCards ∧
        (handleCardClick s i).1.playerUsedCards = s.playerUsedCards ∧
        (handleCardClick s i).1.cpuCards = s.cpuCards ∧
        (handleCardClick s i).1.cpuUsedCards = s.cpuUsedCards := by
      simp only [handleCardClick]
      split_ifs <;> exact ⟨rfl, rfl, rfl, rfl⟩
    rw [h.1, h.2.1, h.2.2.1, h.2.2.2]
    exact ⟨fun _ hv => hv, fun _ hv => hv, fun _ hv => hv, fun _ hv => hv⟩
  | confirm e he =>
    by_cases hL : s.isLocked
    · simp only [handleConfirm, hL, ite_true, if_true]
      exact ⟨fun _ hv => hv, fun _ hv => hv, fun _ hv => hv, fun _ hv => hv⟩
    · simp only [Bool.not_eq_true] at hL
      cases hSel : s.playerSelectedCard with
      | none =>
        simp only [handleConfirm, hL, hSel, Bool.false_eq_true, if_false, ite_false]
        exact ⟨fun _ hv => hv, fun _ hv => hv, fun _ hv => hv, fun _ hv => hv⟩
      | some pSel =>
        by_cases hPh : s.gamePhase = Phase.selection
        case neg =>
          simp only [handleConfirm, hL, hSel, hPh, Bool.false_eq_true, if_false,
            ite_false, ne_eq, ite_true, if_true, not_false_eq_true]
          exact ⟨fun _ hv => hv, fun _ hv => hv, fun _ hv => hv, fun _ hv => hv⟩
        case pos =>
          simp only [handleConfirm, hL, hSel, hPh]
          simp only [Bool.false_eq_true, if_false, ite_true, ite_false, ne_eq,
            not_true_eq_false, if_true]
          split <;>
            exact ⟨fun v hv => List.mem_of_mem_filter hv,
              fun v hv => List.mem_append.mpr (Or.inl hv),
              fun v hv => List.mem_of_mem_filter hv,
              fun v hv => List.mem_append.mpr (Or.inl hv)⟩

/-- When a confirm fires (unlocked, selection pending, selecting phase),
each side moves exactly its chosen card from available to used. -/
theorem handleConfirm_move (s : GameState) (e : TurnEnv)
    (hL : s.isLocked = false) (pSel : Nat) (hSel : s.playerSelectedCard = some pSel)
    (hPh : s.gamePhase = Phase.selection) :
    (handleConfirm s e).1.playerUsedCards = s.playerUsedCards ++ [pSel] ∧
    (handleConfirm s e).1.playerCards = s.playerCards.filter (fun c => c ≠ pSel) ∧
    (handleConfirm s e).1.cpuUsedCards = s.cpuUsedCards ++ [cpuSelectCard s e] ∧
    (handleConfirm s e).1.cpuCards =
      s.cpuCards.filter (fun c => c ≠ cpuSelectCard s e) := by
  simp only [handleConfirm, hL, hSel, hPh]
  simp only [Bool.false_eq_true, if_false, ite_true, ite_false, ne_eq,
    not_true_eq_false, if_true]
  split <;> exact ⟨rfl, rfl, rfl, rfl⟩

/-- C4 (amended): the code never advances currentTurn past 9; completion
happens on turn 9 once all cards are used, so in every reachable state
the phase is complete iff currentTurn = 9 and the player pool is empty,
and currentTurn is at most 9 (never greater). -/
theorem nine_phase_complete_iff (h0 : Option Int) (s : GameState)
    (hr : Reachable h0 s) :
    (s.gamePhase = Phase.complete ↔
      (s.currentTurn = 9 ∧ s.playerCards = [])) ∧
    s.currentTurn ≤ 9 := by
  have hi := inv_reachable hr
  refine ⟨⟨fun h => ⟨(hi.comp_st h).1, (hi.comp_st h).2.1⟩, ?_⟩, hi.turn_le⟩
  rintro ⟨h9, hemp⟩
  cases hph : s.gamePhase with
  | selection =>
    exfalso
    obtain ⟨hlp, _, _, _, _⟩ := hi.sel_len hph
    rw [hemp, h9] at hlp
    simp at hlp
  | reveal => exact absurd hph hi.phase_ne
  | complete => rfl

/-- C4 witness: the amended invariant instantiated at the fresh match state. -/
theorem nine_phase_complete_iff_witness :
    ((startGame none).gamePhase = Phase.complete ↔
      ((startGame none).currentTurn = 9 ∧ (startGame none).playerCards = [])) ∧
    (startGame none).currentTurn ≤ 9 :=
  nine_phase_complete_iff none (startGame none) Reachable.init

/-- One full player turn with the fixed environment e0: click card
element i, then confirm. -/
def clickConfirm (s : GameState) (i : Nat) : GameState :=
  (handleConfirm (handleCardClick s i).1 e0).1

theorem reach_clickConfirm {h0 : Option Int} {s : GameState} (hr : Reachable h0 s)
    (i : Nat) (hi : i < 9) : Reachable h0 (clickConfirm s i) :=
  Reachable.step (Reachable.step hr (Step.click s i hi)) (Step.confirm _ e0 e0Valid)

/-- The state after a complete 9-turn match in which the player plays
cards 1, 2, ..., 9 in order against the fixed environment e0. -/
def runState : GameState :=
  clickConfirm (clickConfirm (clickConfirm (clickConfirm (clickConfirm (clickConfirm
    (clickConfirm (clickConfirm (clickConfirm (startGame none) 0) 1) 2) 3) 4) 5)
      6) 7) 8

/-- C4 counterexample: a reachable completed match whose currentTurn is
9, not greater than 9 — refuting the claimed invariant that the phase is
COMPLETE iff turnNumber exceeds 9. -/
theorem nine_phase_complete_cex :
    Reachable none runState ∧ runState.gamePhase = Phase.complete ∧
    ¬ (runState.currentTurn > 9) := by
  refine ⟨?_, by decide, by decide⟩
  exact reach_clickConfirm (reach_clickConfirm (reach_clickConfirm
    (reach_clickConfirm (reach_clickConfirm (reach_clickConfirm
    (reach_clickConfirm (reach_clickConfirm (reach_clickConfirm
      Reachable.init 0 (by omega)) 1 (by omega)) 2 (by omega)) 3 (by omega))
        4 (by omega)) 5 (by omega)) 6 (by omega)) 7 (by omega)) 8 (by omega)

/-- C5: in every reachable state each side has available and used piles
that are disjoint and together cover exactly the values 1..9; no step
returns a value to an available pool or removes one from a used pile;
and a firing confirm moves exactly one value per side from available to
used. -/
theorem nine_pool_partition (h0 : Option Int) (s : GameState)
    (hr : Reachable h0 s) :
    ((∀ v, (v ∈ s.playerCards ∨ v ∈ s.playerUsedCards) ↔ (1 ≤ v ∧ v ≤ 9)) ∧
     (∀ v, ¬ (v ∈ s.playerCards ∧ v ∈ s.playerUsedCards)) ∧
     (∀ v, (v ∈ s.cpuCards ∨ v ∈ s.cpuUsedCards) ↔ (1 ≤ v ∧ v ≤ 9)) ∧
     (∀ v, ¬ (v ∈ s.cpuCards ∧ v ∈ s.cpuUsedCards))) ∧
    (∀ s', Step s s' →
      (∀ v, v ∈ s'.playerCards → v ∈ s.playerCards) ∧
      (∀ v, v ∈ s.playerUsedCards → v ∈ s'.playerUsedCards) ∧
      (∀ v, v ∈ s'.cpuCards → v ∈ s.cpuCards) ∧
      (∀ v, v ∈ s.cpuUsedCards → v ∈ s'.cpuUsedCards)) ∧
    (∀ e : TurnEnv, ValidEnv e → ∀ p, s.playerSelectedCard = some p →
      s.gamePhase = Phase.selection →
      (handleConfirm s e).1.playerUsedCards = s.playerUsedCards ++ [p] ∧
      (∀ v, v ∈ (handleConfirm s e).1.playerCards ↔
        (v ∈ s.playerCards ∧ v ≠ p)) ∧
      ∃ c, c ∈ s.cpuCards ∧
        (handleConfirm s e).1.cpuUsedCards = s.cpuUsedCards ++ [c] ∧
        (∀ v, v ∈ (handleConfirm s e).1.cpuCards ↔
          (v ∈ s.cpuCards ∧ v ≠ c))) := by
  have hi := inv_reachable hr
  refine ⟨⟨hi.part_p, fun v hv => hi.disj_p v hv.1 hv.2, hi.part_c,
    fun v hv => hi.disj_c v hv.1 hv.2⟩, fun _ st => step_pools_mono st, ?_⟩
  intro e he p hSel hPh
  obtain ⟨_, hlenC, _, _, hL⟩ := hi.sel_len hPh
  have hcne : s.cpuCards ≠ [] := by
    apply List.length_pos.mp
    have := hi.turn_le
    omega
  obtain ⟨hu, ha, hcu, hca⟩ := handleConfirm_move s e hL p hSel hPh
  refine ⟨hu, ?_, cpuSelectCard s e, cpuSelectCard_mem s e he hcne, hcu, ?_⟩
  · intro v
    rw [ha]
    simp [List.mem_filter]
  · intro v
    rw [hca]
    simp [List.mem_filter]

/-- C5 witness: the partition instantiated at the fresh state and value 1. -/
theorem nine_pool_partition_witness :
    (1 ∈ (startGame none).playerCards ∨ 1 ∈ (startGame none).playerUsedCards) ↔
      (1 ≤ 1 ∧ 1 ≤ 9) :=
  (nine_pool_partition none (startGame none) Reachable.init).1.1 1

/-- C10: every reachable available list is strictly ascending, hence its
first three entries lie below all later entries and its last three
entries lie above all earlier ones — exactly what slice(0,3) and
slice(-3) rely on in the Preservation and Desperation rules. -/
theorem nine_pools_sorted (h0 : Option Int) (s : GameState)
    (hr : Reachable h0 s) :
    s.playerCards.Sorted (· < ·) ∧ s.cpuCards.Sorted (· < ·) ∧
    (∀ x ∈ s.cpuCards.take 3, ∀ y ∈ s.cpuCards.drop 3, x < y) ∧
    (∀ x ∈ s.cpuCards.drop (s.cpuCards.length - 3),
      ∀ y ∈ s.cpuCards.take (s.cpuCards.length - 3), y < x) := by
  have hi := inv_reachable hr
  refine ⟨hi.sorted_p, hi.sorted_c, pairwise_take_drop _ _ hi.sorted_c, ?_⟩
  intro x hx y hy
  exact pairwise_take_drop _ _ hi.sorted_c y hy x hx

/-- C10 witness: sortedness instantiated at the fresh state. -/
theorem nine_pools_sorted_witness :
    (startGame none).playerCards.Sorted (· < ·) ∧
    (startGame none).cpuCards.Sorted (· < ·) ∧
    (∀ x ∈ (startGame none).cpuCards.take 3,
      ∀ y ∈ (startGame none).cpuCards.drop 3, x < y) ∧
    (∀ x ∈ (startGame none).cpuCards.drop ((startGame none).cpuCards.length - 3),
      ∀ y ∈ (startGame none).cpuCards.take ((startGame none).cpuCards.length - 3),
        y < x) :=
  nine_pools_sorted none (startGame none) Reachable.init

/-- Sum of round totals counting tied rounds as zero (the spec wording
of the conservation property). -/
def tieAwareSum (rounds : List (Nat × Nat)) : Nat :=
  (rounds.map (fun ab => if ab.1 = ab.2 then 0 else ab.1 + ab.2)).sum

/-- C9: scores start at zero, stay non-negative, and in every reachable
state their total equals the sum over the played rounds of the round
total for the non-tie rounds, ties contributing zero; a completed match
has exactly 9 such rounds. -/
theorem nine_score_conservation (h0 : Option Int) (s : GameState)
    (hr : Reachable h0 s) :
    (startGame h0).playerScore = 0 ∧ (startGame h0).cpuScore = 0 ∧
    0 ≤ s.playerScore ∧ 0 ≤ s.cpuScore ∧
    (∀ a b : Nat, (resolveRound a b).playerPoints + (resolveRound a b).cpuPoints =
      if a = b then 0 else a + b) ∧
    s.playerScore + s.cpuScore =
      ((tieAwareSum (s.playerUsedCards.zip s.cpuUsedCards)) : Int) ∧
    (s.gamePhase = Phase.complete →
      (s.playerUsedCards.zip s.cpuUsedCards).length = 9) := by
  have hi := inv_reachable hr
  have hpt : ∀ a b : Nat,
      (resolveRound a b).playerPoints + (resolveRound a b).cpuPoints =
        if a = b then 0 else a + b := by
    intro a b
    unfold resolveRound
    split_ifs <;> simp_all <;> omega
  have hsum : roundSum (s.playerUsedCards.zip s.cpuUsedCards) =
      tieAwareSum (s.playerUsedCards.zip s.cpuUsedCards) := by
    unfold roundSum tieAwareSum
    congr 1
    exact List.map_congr_left (fun ab _ => hpt ab.1 ab.2)
  refine ⟨rfl, rfl, hi.score_nn_p, hi.score_nn_c, hpt, ?_, ?_⟩
  · rw [hi.score_eq, hsum]
  · intro h
    obtain ⟨_, _, _, hup, hcp, _⟩ := hi.comp_st h
    rw [List.length_zip, hup, hcp]
    omega

/-- C9 witness: the conservation equation instantiated at the fresh state. -/
theorem nine_score_conservation_witness :
    (startGame none).playerScore + (startGame none).cpuScore =
      ((tieAwareSum
        ((startGame none).playerUsedCards.zip (startGame none).cpuUsedCards)) : Int) :=
  (nine_score_conservation none (startGame none) Reachable.init).2.2.2.2.2.1

/-- C6 (amended): in every reachable state, selecting a card outside the
available set, confirming with no pending selection, or selecting or
confirming outside the selecting phase is rejected with no change to any
state field and does not advance the machine; the rejection is silent —
the handlers return without signalling any error value to the caller. -/
theorem nine_invalid_ops_silently_rejected (h0 : Option Int) (s : GameState)
    (hr : Reachable h0 s) :
    (∀ i, i < 9 → ((i + 1) ∉ s.playerCards ∨ s.gamePhase ≠ Phase.selection ∨
      s.isLocked = true) → handleCardClick s i = (s, none)) ∧
    (∀ e : TurnEnv, (s.playerSelectedCard = none ∨
      s.gamePhase ≠ Phase.selection ∨ s.isLocked = true) →
      handleConfirm s e = (s, none)) := by
  have hinv := inv_reachable hr
  constructor
  · intro i hi9 hbad
    by_cases hL : s.isLocked
    · simp [handleCardClick, hL]
    · simp only [Bool.not_eq_true] at hL
      by_cases hPh : s.gamePhase = Phase.selection
      · have hna : (i + 1) ∉ s.playerCards := by
          rcases hbad with h | h | h
          · exact h
          · exact absurd hPh h
          · rw [hL] at h
            exact absurd h (by simp)
        have hu : (i + 1) ∈ s.playerUsedCards := by
          rcases (hinv.part_p (i + 1)).mpr ⟨by omega, by omega⟩ with h | h
          · exact absurd h hna
          · exact h
        simp [handleCardClick, hL, hPh, hu]
      · simp [handleCardClick, hL, hPh]
  · intro e hbad
    by_cases hL : s.isLocked
    · simp [handleConfirm, hL]
    · simp only [Bool.not_eq_true] at hL
      cases hSel : s.playerSelectedCard with
      | none => simp [handleConfirm, hL, hSel]
      | some p =>
        have hPh : s.gamePhase ≠ Phase.selection := by
          rcases hbad with h | h | h
          · rw [hSel] at h
            exact absurd h (by simp)
          · exact h
          · rw [hL] at h
            exact absurd h (by simp)
        simp [handleConfirm, hL, hSel, hPh]

/-- C6 witness: confirming the fresh state with nothing pending leaves it
unchanged and signals nothing. -/
theorem nine_invalid_ops_silently_rejected_witness :
    handleConfirm (startGame none) e0 = (startGame none, none) :=
  (nine_invalid_ops_silently_rejected none (startGame none) Reachable.init).2 e0
    (Or.inl rfl)

/-- C6 counterexample: a confirm with no selection pending in a reachable
state is rejected without any state change, but the error component of
the result is none — no InvalidSelectionError reaches the caller, against
what the claim asserts. -/
theorem nine_invalid_op_signals_nothing_cex :
    Reachable (none : Option Int) (startGame none) ∧
    (startGame none).playerSelectedCard = none ∧
    handleConfirm (startGame none) e0 = (startGame none, none) ∧
    (handleConfirm (startGame none) e0).2 = none :=
  ⟨Reachable.init, rfl, by decide, by decide⟩

/-- C7 (amended): in a reachable selecting state with pending card p,
clicking an available card with a value different from p replaces the
pending choice, but re-clicking the pending card itself clears the
selection (the click is a toggle), rather than leaving it pending. -/
theorem nine_reselect_replaces_or_clears (h0 : Option Int) (s : GameState)
    (hr : Reachable h0 s) (hPh : s.gamePhase = Phase.selection)
    (p : Nat) (hSel : s.playerSelectedCard = some p)
    (i : Nat) (hi9 : i < 9) (hmem : (i + 1) ∈ s.playerCards) :
    (handleCardClick s i).1.playerSelectedCard =
      (if i + 1 = p then none else some (i + 1)) := by
  have hinv := inv_reachable hr
  have hL : s.isLocked = false := (hinv.sel_len hPh).2.2.2.2
  have hU : (i + 1) ∉ s.playerUsedCards := hinv.disj_p _ hmem
  by_cases hip : i + 1 = p
  · subst hip
    simp [handleCardClick, hL, hPh, hU, hSel]
  · have hSel2 : ¬ s.playerSelectedCard = some (i + 1) := by
      rw [hSel]
      intro hc
      exact hip (Option.some.inj hc).symm
    simp [handleCardClick, hL, hPh, hU, hSel2, hip]

/-- C7 witness: after selecting card 1 in the fresh state, clicking the
available card 2 makes it the pending choice. -/
theorem nine_reselect_replaces_or_clears_witness :
    (handleCardClick (handleCardClick (startGame none) 0).1 1).1.playerSelectedCard =
      (if 1 + 1 = 1 then none else some (1 + 1)) :=
  nine_reselect_replaces_or_clears none (handleCardClick (startGame none) 0).1
    (Reachable.step Reachable.init (Step.click (startGame none) 0 (by omega)))
    (by decide) 1 (by decide) 1 (by omega) (by decide)

/-- C7 counterexample: selecting card 1 and then clicking card 1 again
clears the pending selection instead of leaving card 1 pending, refuting
the claim that re-selecting the pending card keeps it as the choice. -/
theorem nine_reselect_toggles_off_cex :
    Reachable (none : Option Int) (handleCardClick (startGame none) 0).1 ∧
    (handleCardClick (startGame none) 0).1.playerSelectedCard = some 1 ∧
    1 ∈ (handleCardClick (startGame none) 0).1.playerCards ∧
    (handleCardClick
      (handleCardClick (startGame none) 0).1 0).1.playerSelectedCard = none :=
  ⟨Reachable.step Reachable.init (Step.click (startGame none) 0 (by omega)),
    by decide, by decide, by decide⟩
